import Mathlib

/-
Verification of the task_scheduler repository: a delayed-task queue with a
Postgres-backed store (common/src/db.rs), task data model (common/src/lib.rs),
filter type (common/src/filter.rs), a polling worker with a semaphore-bounded
dispatch loop (worker/src/main.rs), and an HTTP layer (scheduler/src).

The store table is modelled as a list of tasks (row order is the
store-internal order used to break ORDER BY ties).  Single-statement
semantics are modelled as one step per statement; for the claim statement
the two phases the database actually executes under its default READ
COMMITTED isolation (the CTE SELECT against a snapshot, then the UPDATE
whose WHERE clause tests only tasks.id = cte.id) are additionally
modelled separately, because concurrent claim calls can interleave
between them.  Uuids are modelled as naturals, timestamps as integers
(seconds).
-/

namespace TaskScheduler

/-- Task status enumeration from common/src/lib.rs. -/
inductive TaskStatus where
  | Pending
  | InProgress
  | Completed
deriving DecidableEq, Repr

/-- Task kind enumeration from common/src/lib.rs. -/
inductive TaskKind where
  | Foo
  | Bar
  | Baz
deriving DecidableEq, Repr

/-- Kind-specific claim delay, from TaskKind::process_delay: 3 seconds for
Foo, 0 otherwise. -/
def TaskKind.process_delay : TaskKind → Int
  | .Foo => 3
  | _ => 0

/-- A task row, from struct Task in common/src/lib.rs. -/
structure Task where
  id : Nat
  kind : TaskKind
  process_at : Int
  status : TaskStatus
deriving DecidableEq, Repr

/-- Task::with_current_time: fresh task with process_at computed from the
given time plus the kind delay, status Pending.  The random uuid is passed
explicitly. -/
def Task.with_current_time (kind : TaskKind) (now : Int) (id : Nat) : Task :=
  { id := id, kind := kind, process_at := now + kind.process_delay,
    status := TaskStatus.Pending }

/-- The effect of the claiming UPDATE on the selected row: status becomes
InProgress (this is also the row shape produced by the RETURNING clause). -/
def setInProgress (t : Task) : Task :=
  { t with status := TaskStatus.InProgress }

/-- The effect of the completing UPDATE on a matched row. -/
def setCompleted (t : Task) : Task :=
  { t with status := TaskStatus.Completed }

/-- Row eligibility for the claim query: status = Pending AND
process_at <= now. -/
def eligibleB (now : Int) (t : Task) : Bool :=
  decide (t.status = TaskStatus.Pending ∧ t.process_at ≤ now)

/-- The CTE of get_next_task_executable_at: among eligible rows, the one
with minimal process_at, ties broken by store-internal (list) order. -/
def selectNext (now : Int) : List Task → Option Task
  | [] => none
  | t :: ts =>
    match selectNext now ts with
    | none => if eligibleB now t then some t else none
    | some u =>
      if eligibleB now t ∧ t.process_at ≤ u.process_at then some t else some u

/-- Db::get_next_task_executable_at: one atomic UPDATE driven by the CTE.
Returns the claimed row (after the UPDATE, so with status InProgress) and
the new table state; rows whose id differs from the selected id are
untouched. -/
def get_next_task_executable_at (ts : List Task) (now : Int) :
    Option Task × List Task :=
  match selectNext now ts with
  | none => (none, ts)
  | some t =>
    (some (setInProgress t),
     ts.map fun u => if u.id = t.id then setInProgress u else u)

/-- The completing UPDATE of Db::complete_task applied to the table: rows
matching id and status InProgress become Completed. -/
def complete_upd (ts : List Task) (i : Nat) : List Task :=
  ts.map fun t =>
    if t.id = i ∧ t.status = TaskStatus.InProgress then setCompleted t else t

/-- Db::complete_task: the UPDATE runs; if it affected no row the call is
an error (TaskNotPending) and none is returned, otherwise the new table. -/
def complete_task (ts : List Task) (i : Nat) : Option (List Task) :=
  if ∃ t ∈ ts, t.id = i ∧ t.status = TaskStatus.InProgress then
    some (complete_upd ts i)
  else
    none

/-- Db::add_task: a plain INSERT; the primary key on id makes it fail when
the id is already present, otherwise the row is appended. -/
def add_task (ts : List Task) (t : Task) : Option (List Task) :=
  if ∃ u ∈ ts, u.id = t.id then none else some (ts ++ [t])

/-- Db::delete_task: unconditional DELETE by id; always succeeds. -/
def delete_task (ts : List Task) (i : Nat) : List Task :=
  ts.filter fun t => decide ¬(t.id = i)

/-- Db::get_task: SELECT by id. -/
def get_task (ts : List Task) (i : Nat) : Option Task :=
  ts.find? fun t => decide (t.id = i)

/-- The ORDER BY process_at comparison. -/
def paLE (a b : Task) : Prop := a.process_at ≤ b.process_at

instance : DecidableRel paLE := fun a b => Int.decLe a.process_at b.process_at

instance : IsTotal Task paLE := ⟨fun a b => Int.le_total a.process_at b.process_at⟩

instance : IsTrans Task paLE := ⟨fun _ _ _ h1 h2 => Int.le_trans h1 h2⟩

/-- Db::get_tasks: SELECT ... ORDER BY process_at. -/
def get_tasks (ts : List Task) : List Task :=
  List.insertionSort paLE ts

/-- Filter from common/src/filter.rs. -/
inductive Filter where
  | Status (status : TaskStatus)
  | Kind (kind : TaskKind)
deriving DecidableEq, Repr

/-- The WHERE clause of each branch of Db::get_filtered_tasks. -/
def matchesFilter (spec : Filter) (t : Task) : Prop :=
  match spec with
  | .Status s => t.status = s
  | .Kind k => t.kind = k

instance (spec : Filter) (t : Task) : Decidable (matchesFilter spec t) := by
  unfold matchesFilter
  cases spec <;> infer_instance

/-- Db::get_filtered_tasks: SELECT ... WHERE ... ORDER BY process_at. -/
def get_filtered_tasks (spec : Filter) (ts : List Task) : List Task :=
  List.insertionSort paLE (ts.filter fun t => decide (matchesFilter spec t))

/-- Serialized claim calls: the result list collects the tasks returned
by each call, in call order.  This covers executions in which each claim
statement runs without another claim committing between its CTE select
and its UPDATE; overlapped executions under READ COMMITTED are modelled
separately by claimPhases below. -/
def claimMany : List Task → List Int → List Task × List Task
  | ts, [] => ([], ts)
  | ts, now :: rest =>
    match get_next_task_executable_at ts now with
    | (none, ts2) => claimMany ts2 rest
    | (some a, ts2) =>
      let r := claimMany ts2 rest
      (a :: r.1, r.2)

/-- The CTE phase of the claim statement, run against the snapshot its
transaction sees: SELECT id FROM tasks WHERE status = Pending AND
process_at <= now ORDER BY process_at LIMIT 1.  The status and time
guards live only here, not in the outer UPDATE. -/
def cteSelect (snapshot : List Task) (now : Int) : Option Nat :=
  (selectNext now snapshot).map Task.id

/-- The UPDATE phase of the claim statement applied to the current table:
SET status = InProgress FROM cte WHERE tasks.id = cte.id.  Its only row
qualifier is the id equality, which is also all that the engine rechecks
(EvalPlanQual) under READ COMMITTED when the row was changed by a
concurrent transaction after the CTE snapshot was taken. -/
def updateById (ts : List Task) (i : Nat) : List Task :=
  ts.map fun u => if u.id = i then setInProgress u else u

/-- The RETURNING clause: the updated row handed back to the caller. -/
def returningById (ts : List Task) (i : Nat) : Option Task :=
  get_task (updateById ts i) i

/-- One claim statement split into its two phases: the CTE runs against
the snapshot the transaction took, the UPDATE and RETURNING run against
the current table.  When snapshot and current table coincide this is the
serialized execution; under READ COMMITTED a concurrent claim may commit
between the phases, making them differ. -/
def claimPhases (snapshot ts : List Task) (now : Int) :
    Option Task × List Task :=
  match cteSelect snapshot now with
  | none => (none, ts)
  | some i => (returningById ts i, updateById ts i)

/-- The store operations reachable through the public API, used to state
invariants over arbitrary operation sequences. -/
inductive StoreOp where
  | insert (t : Task)
  | claim (now : Int)
  | complete (i : Nat)
  | delete (i : Nat)

/-- Applying one store operation to the table; failed inserts and failed
completes leave the table unchanged (the SQL affected no row). -/
def applyOp (ts : List Task) : StoreOp → List Task
  | .insert t => (add_task ts t).getD ts
  | .claim now => (get_next_task_executable_at ts now).2
  | .complete i => (complete_task ts i).getD ts
  | .delete i => delete_task ts i

/-- The status of the (unique) row with a given id, as observed through
SELECT by id. -/
def getStatus (ts : List Task) (i : Nat) : Option TaskStatus :=
  (get_task ts i).map Task.status

/-! ### Worker loop (worker/src/main.rs)

The loop polls get_next_task_executable_at; on none it sleeps and polls
again; on some it acquires a semaphore permit (blocking while the pool is
saturated) and only then spawns run_task, which runs the task, calls
complete_task (logging, not propagating, its error), and drops the permit.
The model is a labelled transition system: the loop's program counter plus
the store and the multiset of dispatched-but-not-completed task ids
(outstanding permits). -/

/-- MAX_CONCURRENT_TASKS from worker/src/main.rs. -/
def MAX_CONCURRENT_TASKS : Nat := 10

/-- Program counter of the polling loop: about to poll, or holding a
claimed task while waiting to acquire a permit before dispatch. -/
inductive PC where
  | poll
  | acquire (t : Task)
deriving DecidableEq, Repr

/-- Worker-loop state: the shared store, ids of dispatched tasks whose
permits are still held, and the loop position. -/
structure WState where
  store : List Task
  executing : List Nat
  pc : PC
deriving DecidableEq, Repr

/-- The store effect of run_task finishing: complete_task is invoked; on
error it is only logged, the store stays as the failed UPDATE left it. -/
def completeEffect (ts : List Task) (i : Nat) : List Task :=
  (complete_task ts i).getD ts

/-- Transition labels: a poll that found nothing (then sleeps), a poll
that claimed a task, the dispatch after acquiring a permit, or a spawned
task finishing (completing and releasing its permit). -/
inductive Label where
  | pollNone (now : Int)
  | pollSome (now : Int)
  | dispatched
  | finished (i : Nat)
deriving DecidableEq, Repr

/-- One step of the worker system. Poll steps happen only with the loop at
the poll point; dispatch requires a free permit (executing below the cap);
a finish step can interleave anywhere, for any dispatched task. -/
inductive WStep : WState → Label → WState → Prop where
  | pollNone (store : List Task) (ex : List Nat) (now : Int) (ts2 : List Task) :
      get_next_task_executable_at store now = (none, ts2) →
      WStep ⟨store, ex, PC.poll⟩ (Label.pollNone now) ⟨ts2, ex, PC.poll⟩
  | pollSome (store : List Task) (ex : List Nat) (now : Int) (t : Task)
      (ts2 : List Task) :
      get_next_task_executable_at store now = (some t, ts2) →
      WStep ⟨store, ex, PC.poll⟩ (Label.pollSome now) ⟨ts2, ex, PC.acquire t⟩
  | dispatched (store : List Task) (ex : List Nat) (t : Task) :
      ex.length < MAX_CONCURRENT_TASKS →
      WStep ⟨store, ex, PC.acquire t⟩ Label.dispatched
        ⟨store, t.id :: ex, PC.poll⟩
  | finished (store : List Task) (ex : List Nat) (pc : PC) (i : Nat) :
      i ∈ ex →
      WStep ⟨store, ex, pc⟩ (Label.finished i)
        ⟨completeEffect store i, ex.erase i, pc⟩

/-- Reachability under worker steps. -/
def WReach (s s2 : WState) : Prop :=
  Relation.ReflTransGen (fun a b => ∃ l, WStep a l b) s s2

/-- Initial worker state over a given store. -/
def initWorker (ts : List Task) : WState :=
  ⟨ts, [], PC.poll⟩

/-- Executable one-step interpreter for a given label, to build concrete
reachable traces. -/
def stepRun (s : WState) : Label → Option WState
  | .pollNone now =>
    match s.pc with
    | PC.poll =>
      match get_next_task_executable_at s.store now with
      | (none, ts2) => some ⟨ts2, s.executing, PC.poll⟩
      | (some _, _) => none
    | _ => none
  | .pollSome now =>
    match s.pc with
    | PC.poll =>
      match get_next_task_executable_at s.store now with
      | (some t, ts2) => some ⟨ts2, s.executing, PC.acquire t⟩
      | (none, _) => none
    | _ => none
  | .dispatched =>
    match s.pc with
    | PC.acquire t =>
      if s.executing.length < MAX_CONCURRENT_TASKS then
        some ⟨s.store, t.id :: s.executing, PC.poll⟩
      else none
    | _ => none
  | .finished i =>
    if i ∈ s.executing then
      some ⟨completeEffect s.store i, s.executing.erase i, s.pc⟩
    else none

/-- Run a list of labels in order, failing if any step is disabled. -/
def runLabels : WState → List Label → Option WState
  | s, [] => some s
  | s, l :: ls =>
    match stepRun s l with
    | none => none
    | some s2 => runLabels s2 ls

/-- The HTTP creation payload from scheduler/src/types.rs: a kind and a
caller-supplied execute_at timestamp. -/
structure TaskRequest where
  kind : TaskKind
  execute_at : Int

/-- The From TaskRequest conversion in scheduler/src/types.rs: the request's
execute_at is passed to Task::with_current_time in place of the current
time; the server clock is never consulted.  The fresh uuid is explicit. -/
def taskFromRequest (r : TaskRequest) (i : Nat) : Task :=
  Task.with_current_time r.kind r.execute_at i

/-- A two-row store used to instantiate universally quantified theorems. -/
def demoA : Task := ⟨1, TaskKind.Bar, 0, TaskStatus.Pending⟩

def demoB : Task := ⟨2, TaskKind.Baz, 1, TaskStatus.Pending⟩

def demoStore : List Task := [demoA, demoB]

/-- Eleven immediately eligible tasks, one more than the worker cap. -/
def demoTasks : List Task :=
  (List.range 11).map fun i => ⟨i, TaskKind.Bar, 0, TaskStatus.Pending⟩

/-- Ten claim-then-dispatch iterations of the worker loop. -/
def satLabels : List Label :=
  (List.range 10).foldr (fun _ acc => Label.pollSome 0 :: Label.dispatched :: acc) []

/-- The store after the worker has claimed and dispatched ten of the eleven
tasks: ids 0..9 are InProgress, id 10 still Pending. -/
def cexSatStore : List Task :=
  [⟨0, TaskKind.Bar, 0, TaskStatus.InProgress⟩,
   ⟨1, TaskKind.Bar, 0, TaskStatus.InProgress⟩,
   ⟨2, TaskKind.Bar, 0, TaskStatus.InProgress⟩,
   ⟨3, TaskKind.Bar, 0, TaskStatus.InProgress⟩,
   ⟨4, TaskKind.Bar, 0, TaskStatus.InProgress⟩,
   ⟨5, TaskKind.Bar, 0, TaskStatus.InProgress⟩,
   ⟨6, TaskKind.Bar, 0, TaskStatus.InProgress⟩,
   ⟨7, TaskKind.Bar, 0, TaskStatus.InProgress⟩,
   ⟨8, TaskKind.Bar, 0, TaskStatus.InProgress⟩,
   ⟨9, TaskKind.Bar, 0, TaskStatus.InProgress⟩,
   ⟨10, TaskKind.Bar, 0, TaskStatus.Pending⟩]

/-- Reachable worker state with the permit pool saturated (ten permits
held) and the loop back at its poll point. -/
def cexSat : WState :=
  ⟨cexSatStore, [9, 8, 7, 6, 5, 4, 3, 2, 1, 0], PC.poll⟩

/-- The state right after the saturated loop polls again: an eleventh task
is already claimed (InProgress in the store) while all permits are held. -/
def cexSatNext : WState :=
  ⟨[⟨0, TaskKind.Bar, 0, TaskStatus.InProgress⟩,
    ⟨1, TaskKind.Bar, 0, TaskStatus.InProgress⟩,
    ⟨2, TaskKind.Bar, 0, TaskStatus.InProgress⟩,
    ⟨3, TaskKind.Bar, 0, TaskStatus.InProgress⟩,
    ⟨4, TaskKind.Bar, 0, TaskStatus.InProgress⟩,
    ⟨5, TaskKind.Bar, 0, TaskStatus.InProgress⟩,
    ⟨6, TaskKind.Bar, 0, TaskStatus.InProgress⟩,
    ⟨7, TaskKind.Bar, 0, TaskStatus.InProgress⟩,
    ⟨8, TaskKind.Bar, 0, TaskStatus.InProgress⟩,
    ⟨9, TaskKind.Bar, 0, TaskStatus.InProgress⟩,
    ⟨10, TaskKind.Bar, 0, TaskStatus.InProgress⟩],
   [9, 8, 7, 6, 5, 4, 3, 2, 1, 0],
   PC.acquire ⟨10, TaskKind.Bar, 0, TaskStatus.InProgress⟩⟩

/-- A worker state with one dispatched task, used to instantiate the
run_task theorem. -/
def demoWState : WState :=
  ⟨[⟨5, TaskKind.Bar, 0, TaskStatus.InProgress⟩], [5], PC.poll⟩

theorem stepRun_sound (s : WState) (l : Label) (s2 : WState)
    (h : stepRun s l = some s2) : WStep s l s2 := by
  obtain ⟨store, ex, pc⟩ := s
  cases l with
  | pollNone now =>
    cases pc with
    | poll =>
      simp only [stepRun] at h
      rcases hq : get_next_task_executable_at store now with ⟨r, ts2⟩
      rw [hq] at h
      cases r with
      | none =>
        simp only at h
        cases h
        exact WStep.pollNone store ex now ts2 hq
      | some t => simp at h
    | acquire t => simp [stepRun] at h
  | pollSome now =>
    cases pc with
    | poll =>
      simp only [stepRun] at h
      rcases hq : get_next_task_executable_at store now with ⟨r, ts2⟩
      rw [hq] at h
      cases r with
      | none => simp at h
      | some t =>
        simp only at h
        cases h
        exact WStep.pollSome store ex now t ts2 hq
    | acquire t => simp [stepRun] at h
  | dispatched =>
    cases pc with
    | poll => simp [stepRun] at h
    | acquire t =>
      simp only [stepRun] at h
      by_cases hc : ex.length < MAX_CONCURRENT_TASKS
      · rw [if_pos hc] at h
        cases h
        exact WStep.dispatched store ex t hc
      · rw [if_neg hc] at h
        cases h
  | finished i =>
    simp only [stepRun] at h
    by_cases hc : i ∈ ex
    · rw [if_pos hc] at h
      cases h
      exact WStep.finished store ex pc i hc
    · rw [if_neg hc] at h
      cases h

theorem runLabels_sound (ls : List Label) (s s2 : WState)
    (h : runLabels s ls = some s2) : WReach s s2 := by
  induction ls generalizing s with
  | nil =>
    simp only [runLabels] at h
    cases h
    exact Relation.ReflTransGen.refl
  | cons l ls ih =>
    simp only [runLabels] at h
    rcases hs : stepRun s l with _ | s3
    · rw [hs] at h; cases h
    · rw [hs] at h
      exact Relation.ReflTransGen.head ⟨l, stepRun_sound s l s3 hs⟩ (ih s3 h)

/-! ### Properties of the claim query -/

theorem eligibleB_iff (now : Int) (t : Task) :
    eligibleB now t = true ↔ t.status = TaskStatus.Pending ∧ t.process_at ≤ now := by
  simp [eligibleB]

theorem selectNext_mem (now : Int) (ts : List Task) (a : Task)
    (h : selectNext now ts = some a) : a ∈ ts := by
  induction ts with
  | nil => simp [selectNext] at h
  | cons t ts ih =>
    simp only [selectNext] at h
    split at h
    · split at h
      · cases h; exact List.mem_cons_self ..
      · cases h
    · split at h
      · cases h; exact List.mem_cons_self ..
      · cases h
        rename_i u heq _
        exact List.mem_cons_of_mem _ (ih heq)

theorem selectNext_eligible (now : Int) (ts : List Task) (a : Task)
    (h : selectNext now ts = some a) : eligibleB now a = true := by
  induction ts with
  | nil => simp [selectNext] at h
  | cons t ts ih =>
    simp only [selectNext] at h
    split at h
    · split at h
      · cases h; assumption
      · cases h
    · split at h
      · cases h
        rename_i hc
        exact hc.1
      · cases h
        rename_i u heq _
        exact ih heq

theorem selectNext_eq_none (now : Int) (ts : List Task) :
    selectNext now ts = none ↔ ∀ t ∈ ts, eligibleB now t = false := by
  induction ts with
  | nil => simp [selectNext]
  | cons t ts ih =>
    simp only [selectNext]
    rcases hs : selectNext now ts with _ | u
    · by_cases he : eligibleB now t
      · rw [if_pos he]
        simp only [List.mem_cons]
        constructor
        · intro h; cases h
        · intro h
          have := h t (Or.inl rfl)
          rw [he] at this
          cases this
      · rw [if_neg he]
        simp only [List.mem_cons, true_iff]
        intro u hu
        rcases hu with rfl | hu2
        · exact Bool.eq_false_iff.mpr he
        · exact (ih.mp hs) u hu2
    · constructor
      · intro h
        by_cases hc : eligibleB now t = true ∧ t.process_at ≤ u.process_at <;>
          simp [hc] at h
      · intro h
        have hu := h u (List.mem_cons_of_mem _ (selectNext_mem now ts u hs))
        have := selectNext_eligible now ts u hs
        rw [hu] at this
        cases this

theorem selectNext_min (now : Int) (ts : List Task) (a : Task)
    (h : selectNext now ts = some a) :
    ∀ u ∈ ts, eligibleB now u = true → a.process_at ≤ u.process_at := by
  induction ts generalizing a with
  | nil => simp [selectNext] at h
  | cons t ts ih =>
    intro u hu hue
    simp only [selectNext] at h
    split at h
    · rename_i heq
      have hall := (selectNext_eq_none now ts).mp heq
      split at h
      · obtain rfl : t = a := Option.some.inj h
        rcases List.mem_cons.mp hu with rfl | hu2
        · exact Int.le_refl _
        · rw [hall u hu2] at hue
          cases hue
      · cases h
    · rename_i v heq
      split at h
      · rename_i hc
        obtain rfl : t = a := Option.some.inj h
        rcases List.mem_cons.mp hu with rfl | hu2
        · exact Int.le_refl _
        · exact Int.le_trans hc.2 (ih v heq u hu2 hue)
      · rename_i hc
        obtain rfl : v = a := Option.some.inj h
        rcases List.mem_cons.mp hu with rfl | hu2
        · by_cases hte : eligibleB now u = true
          · have h1 : ¬ u.process_at ≤ v.process_at := fun hle => hc ⟨hte, hle⟩
            omega
          · exact absurd hue hte
        · exact ih v heq u hu2 hue

theorem get_next_none_iff (ts : List Task) (now : Int) :
    (get_next_task_executable_at ts now).1 = none ↔
      ∀ t ∈ ts, ¬(t.status = TaskStatus.Pending ∧ t.process_at ≤ now) := by
  unfold get_next_task_executable_at
  rcases hs : selectNext now ts with _ | u
  · simp only [true_iff]
    intro t ht hcontra
    have := (selectNext_eq_none now ts).mp hs t ht
    rw [(eligibleB_iff now t).mpr hcontra] at this
    cases this
  · simp only [reduceCtorEq, false_iff, not_forall]
    push_neg
    exact ⟨u, selectNext_mem now ts u hs,
      (eligibleB_iff now u).mp (selectNext_eligible now ts u hs)⟩

theorem get_next_some (ts : List Task) (now : Int) (a : Task) (ts2 : List Task)
    (h : get_next_task_executable_at ts now = (some a, ts2)) :
    ∃ t, t ∈ ts ∧ t.status = TaskStatus.Pending ∧ t.process_at ≤ now ∧
      a = setInProgress t ∧
      (∀ u ∈ ts, u.status = TaskStatus.Pending → u.process_at ≤ now →
        t.process_at ≤ u.process_at) ∧
      ts2 = ts.map fun u => if u.id = t.id then setInProgress u else u := by
  unfold get_next_task_executable_at at h
  rcases hs : selectNext now ts with _ | t
  · rw [hs] at h
    cases h
  · rw [hs] at h
    obtain ⟨h1, h2⟩ := Prod.mk.injEq .. ▸ h
    obtain rfl : setInProgress t = a := Option.some.inj h1
    have he := (eligibleB_iff now t).mp (selectNext_eligible now ts t hs)
    exact ⟨t, selectNext_mem now ts t hs, he.1, he.2, rfl,
      fun u hu h3 h4 =>
        selectNext_min now ts t hs u hu ((eligibleB_iff now u).mpr ⟨h3, h4⟩),
      h2.symm⟩

/-- Claims never make a row Pending: a claimed-or-untouched row keeps or
loses Pending status, never gains it. -/
def allNotPendingId (i : Nat) (ts : List Task) : Prop :=
  ∀ t ∈ ts, t.id = i → t.status ≠ TaskStatus.Pending

theorem claim_preserves_notPending (i : Nat) (ts : List Task) (now : Int)
    (h : allNotPendingId i ts) :
    allNotPendingId i (get_next_task_executable_at ts now).2 := by
  unfold get_next_task_executable_at
  rcases hs : selectNext now ts with _ | t
  · exact h
  · intro u hu hid
    rcases List.mem_map.mp hu with ⟨v, hv, rfl⟩
    by_cases hc : v.id = t.id
    · rw [if_pos hc]
      simp [setInProgress]
    · rw [if_neg hc]
      rw [if_neg hc] at hid
      exact h v hv hid

theorem claim_post_notPending (ts : List Task) (now : Int) (a : Task)
    (ts2 : List Task) (h : get_next_task_executable_at ts now = (some a, ts2)) :
    allNotPendingId a.id ts2 := by
  obtain ⟨t, _, _, _, rfl, _, rfl⟩ := get_next_some ts now a ts2 h
  intro u hu hid
  rcases List.mem_map.mp hu with ⟨v, hv, rfl⟩
  by_cases hc : v.id = t.id
  · rw [if_pos hc]
    simp [setInProgress]
  · rw [if_neg hc]
    rw [if_neg hc] at hid
    exact absurd hid hc

theorem claim_no_return_notPending (ts : List Task) (now : Int) (a : Task)
    (ts2 : List Task) (h : get_next_task_executable_at ts now = (some a, ts2))
    (hnp : allNotPendingId a.id ts) : False := by
  obtain ⟨t, hmem, hp, _, rfl, _, _⟩ := get_next_some ts now a ts2 h
  exact hnp t hmem rfl hp

theorem claimMany_not_mem (i : Nat) (ts : List Task) (nows : List Int)
    (h : allNotPendingId i ts) :
    i ∉ (claimMany ts nows).1.map Task.id := by
  induction nows generalizing ts with
  | nil => simp [claimMany]
  | cons now rest ih =>
    simp only [claimMany]
    rcases hq : get_next_task_executable_at ts now with ⟨r, ts2⟩
    have hpres : allNotPendingId i ts2 := by
      have := claim_preserves_notPending i ts now h
      rw [hq] at this
      exact this
    cases r with
    | none => exact ih ts2 hpres
    | some a =>
      simp only [List.map_cons, List.mem_cons]
      rintro (rfl | hmem)
      · exact claim_no_return_notPending ts now a ts2 hq h
      · exact ih ts2 hpres hmem

theorem claimMany_nodup (ts : List Task) (nows : List Int) :
    ((claimMany ts nows).1.map Task.id).Nodup := by
  induction nows generalizing ts with
  | nil => simp [claimMany]
  | cons now rest ih =>
    simp only [claimMany]
    rcases hq : get_next_task_executable_at ts now with ⟨r, ts2⟩
    cases r with
    | none => exact ih ts2
    | some a =>
      simp only [List.map_cons, List.nodup_cons]
      exact ⟨claimMany_not_mem a.id ts2 rest
        (claim_post_notPending ts now a ts2 hq), ih ts2⟩

/-- The number of rows eligible for claiming at a given time. -/
def countEligible (ts : List Task) (now : Int) : Nat :=
  (ts.filter (eligibleB now)).length

theorem claim_ids_eq (ts : List Task) (now : Int) :
    ((get_next_task_executable_at ts now).2).map Task.id = ts.map Task.id := by
  unfold get_next_task_executable_at
  rcases hs : selectNext now ts with _ | t
  · rfl
  · simp only [List.map_map]
    apply List.map_congr_left
    intro u _
    by_cases hc : u.id = t.id
    · simp [hc, setInProgress]
    · simp [hc]

theorem claim_some_of_pos (ts : List Task) (now : Int)
    (h : 0 < countEligible ts now) :
    ∃ a ts2, get_next_task_executable_at ts now = (some a, ts2) := by
  rcases hs : selectNext now ts with _ | t
  · exfalso
    unfold countEligible at h
    obtain ⟨u, hu⟩ := List.exists_mem_of_length_pos h
    obtain ⟨hmem, helig⟩ := List.mem_filter.mp hu
    have := (selectNext_eq_none now ts).mp hs _ hmem
    rw [helig] at this
    cases this
  · exact ⟨setInProgress t, _, by unfold get_next_task_executable_at; rw [hs]⟩

theorem claim_count_decr (ts : List Task) (now : Int) (a : Task)
    (ts2 : List Task) (hids : (ts.map Task.id).Nodup)
    (h : get_next_task_executable_at ts now = (some a, ts2)) :
    countEligible ts2 now + 1 = countEligible ts now := by
  obtain ⟨t, hmem, hp, hl, rfl, _, rfl⟩ := get_next_some ts now a ts2 h
  obtain ⟨l1, l2, rfl⟩ := List.append_of_mem hmem
  have hids2 := hids
  simp only [List.map_append, List.map_cons, List.nodup_append,
    List.nodup_cons, List.mem_cons] at hids2
  obtain ⟨_, ⟨hnot2, _⟩, hdisj⟩ := hids2
  have h1 : ∀ u ∈ l1, u.id ≠ t.id := by
    intro u hu heq
    exact hdisj (List.mem_map_of_mem Task.id hu) (List.mem_cons.mpr (Or.inl heq))
  have h2 : ∀ u ∈ l2, u.id ≠ t.id := by
    intro u hu heq
    exact hnot2 (heq ▸ List.mem_map_of_mem Task.id hu)
  have hmap1 : l1.map (fun u => if u.id = t.id then setInProgress u else u) = l1 := by
    rw [List.map_congr_left fun u hu => if_neg (h1 u hu)]
    exact List.map_id _
  have hmap2 : l2.map (fun u => if u.id = t.id then setInProgress u else u) = l2 := by
    rw [List.map_congr_left fun u hu => if_neg (h2 u hu)]
    exact List.map_id _
  have hft : (if t.id = t.id then setInProgress t else t) = setInProgress t :=
    if_pos rfl
  have helig_t : eligibleB now t = true := (eligibleB_iff now t).mpr ⟨hp, hl⟩
  have hnelig : eligibleB now (setInProgress t) = false := by
    simp [eligibleB, setInProgress]
  unfold countEligible
  rw [List.map_append, List.map_cons, hmap1, hmap2, hft,
    List.filter_append, List.filter_append, List.filter_cons, List.filter_cons,
    helig_t, hnelig]
  simp only [if_true, Bool.false_eq_true, if_false, List.length_append,
    List.length_cons]
  omega

theorem claimMany_length (n : Nat) (ts : List Task) (now : Int)
    (hids : (ts.map Task.id).Nodup) (h : n ≤ countEligible ts now) :
    (claimMany ts (List.replicate n now)).1.length = n := by
  induction n generalizing ts with
  | zero => simp [claimMany]
  | succ n ih =>
    obtain ⟨a, ts2, hq⟩ := claim_some_of_pos ts now (Nat.lt_of_lt_of_le (Nat.succ_pos n) h)
    have hids2 : (ts2.map Task.id).Nodup := by
      have := claim_ids_eq ts now
      rw [hq] at this
      rw [this]
      exact hids
    have hcount : n ≤ countEligible ts2 now := by
      have := claim_count_decr ts now a ts2 hids hq
      omega
    simp only [List.replicate_succ, claimMany, hq, List.length_cons]
    rw [ih ts2 hids2 hcount]

/-! ### Claim theorems -/

/-- C2: for every store state and time now, get_next_task_executable_at
selects a Pending task with the smallest process_at among those with
process_at at most now, marks it InProgress (both in the store and in the
returned value), never returns a task with process_at above now or whose
stored status was not Pending, and returns none exactly when no Pending
task with process_at at most now exists. -/
theorem claimNext_correct (ts : List Task) (now : Int) :
    (∀ a ts2, get_next_task_executable_at ts now = (some a, ts2) →
      a.status = TaskStatus.InProgress ∧
      a.process_at ≤ now ∧
      (∃ t, t ∈ ts ∧ t.status = TaskStatus.Pending ∧ t.process_at ≤ now ∧
        a = setInProgress t ∧
        ts2 = ts.map fun u => if u.id = t.id then setInProgress u else u) ∧
      (∀ u ∈ ts, u.status = TaskStatus.Pending → u.process_at ≤ now →
        a.process_at ≤ u.process_at)) ∧
    ((get_next_task_executable_at ts now).1 = none ↔
      ∀ t ∈ ts, ¬(t.status = TaskStatus.Pending ∧ t.process_at ≤ now)) := by
  refine ⟨?_, get_next_none_iff ts now⟩
  intro a ts2 h
  obtain ⟨t, hmem, hp, hl, rfl, hmin, hts2⟩ := get_next_some ts now a ts2 h
  exact ⟨rfl, hl, ⟨t, hmem, hp, hl, rfl, hts2⟩,
    fun u hu h1 h2 => hmin u hu h1 h2⟩

theorem claimNext_correct_witness :
    (setInProgress demoA).status = TaskStatus.InProgress ∧
    (setInProgress demoA).process_at ≤ 5 ∧
    (∃ t, t ∈ demoStore ∧ t.status = TaskStatus.Pending ∧ t.process_at ≤ 5 ∧
      setInProgress demoA = setInProgress t ∧
      [setInProgress demoA, demoB] =
        demoStore.map fun u => if u.id = t.id then setInProgress u else u) ∧
    (∀ u ∈ demoStore, u.status = TaskStatus.Pending → u.process_at ≤ 5 →
      (setInProgress demoA).process_at ≤ u.process_at) :=
  (claimNext_correct demoStore 5).1 (setInProgress demoA)
    [setInProgress demoA, demoB] (by decide)

/-- Exclusivity of serialized claim calls: when no claim statement
overlaps another (each statement's CTE and UPDATE see the same table),
the returned task ids are pairwise distinct over every sequence of calls,
and with unique row ids and at least n rows eligible at time now, n calls
at time now return exactly n pairwise distinct tasks.  This is the
guarantee the spec intends; it does not extend to overlapped executions,
see double_claim_race. -/
theorem serialized_claim_exclusivity (ts : List Task) (nows : List Int)
    (now : Int) (n : Nat) (hids : (ts.map Task.id).Nodup)
    (hn : n ≤ countEligible ts now) :
    ((claimMany ts nows).1.map Task.id).Nodup ∧
    (claimMany ts (List.replicate n now)).1.length = n ∧
    ((claimMany ts (List.replicate n now)).1.map Task.id).Nodup :=
  ⟨claimMany_nodup ts nows, claimMany_length n ts now hids hn,
    claimMany_nodup ts _⟩

theorem serialized_claim_exclusivity_example :
    ((claimMany demoStore [5, 5, 5]).1.map Task.id).Nodup ∧
    (claimMany demoStore (List.replicate 2 5)).1.length = 2 ∧
    ((claimMany demoStore (List.replicate 2 5)).1.map Task.id).Nodup :=
  serialized_claim_exclusivity demoStore [5, 5, 5] 5 2 (by decide) (by decide)

/-- C1 (code bug): the double-claim race.  The claim statement guards
status = Pending and process_at <= now only inside its CTE; the outer
UPDATE is qualified by tasks.id = cte.id alone, with no FOR UPDATE or
SKIP LOCKED, and the repository never raises the isolation level above
the default READ COMMITTED.  So two overlapped calls can both evaluate
their CTE against the state before either UPDATE commits and select the
same id; the first UPDATE commits, and the second still passes its
id-only recheck, updates the row again, and its RETURNING hands the very
same task to the second caller.  Evaluated here on a store with one
eligible task (id 1) at time 5: both callers of the overlapped pair
receive the id-1 task, contradicting the claim that each eligible task is
returned to exactly one caller. -/
theorem double_claim_race :
    (claimPhases [demoA] [demoA] 5).1 = some (setInProgress demoA) ∧
    (claimPhases [demoA] (claimPhases [demoA] [demoA] 5).2 5).1 =
      some (setInProgress demoA) := by decide

/-- C3: complete_task succeeds exactly when a row with the given id is
InProgress; on success that row becomes Completed and every other row is
untouched; on error (row Pending, Completed, or absent) the UPDATE matched
nothing, so the store is left completely unchanged. -/
theorem complete_task_correct (ts : List Task) (i : Nat) :
    ((complete_task ts i).isSome = true ↔
      ∃ t ∈ ts, t.id = i ∧ t.status = TaskStatus.InProgress) ∧
    (∀ ts2, complete_task ts i = some ts2 →
      ts2 = complete_upd ts i ∧
      (∀ t ∈ ts, t.id = i → t.status = TaskStatus.InProgress →
        setCompleted t ∈ ts2) ∧
      (∀ t ∈ ts, ¬(t.id = i ∧ t.status = TaskStatus.InProgress) → t ∈ ts2)) ∧
    (complete_task ts i = none → complete_upd ts i = ts) := by
  unfold complete_task
  by_cases hc : ∃ t ∈ ts, t.id = i ∧ t.status = TaskStatus.InProgress
  · rw [if_pos hc]
    refine ⟨by simpa using hc, ?_, by intro h; cases h⟩
    intro ts2 h
    obtain rfl : complete_upd ts i = ts2 := Option.some.inj h
    refine ⟨rfl, ?_, ?_⟩
    · intro t hmem hid hst
      unfold complete_upd
      exact List.mem_map.mpr ⟨t, hmem, if_pos ⟨hid, hst⟩⟩
    · intro t hmem hng
      unfold complete_upd
      exact List.mem_map.mpr ⟨t, hmem, if_neg hng⟩
  · rw [if_neg hc]
    push_neg at hc
    refine ⟨by simpa using fun t hmem hid => hc t hmem hid, ?_, ?_⟩
    · intro ts2 h; cases h
    · intro _
      unfold complete_upd
      have : ∀ t ∈ ts,
          (if t.id = i ∧ t.status = TaskStatus.InProgress then setCompleted t
           else t) = t := by
        intro t hmem
        exact if_neg fun hand => hc t hmem hand.1 hand.2
      rw [List.map_congr_left this]
      exact List.map_id _

theorem complete_task_correct_witness :
    ((complete_task [setInProgress demoA] demoA.id).isSome = true ↔
      ∃ t ∈ [setInProgress demoA], t.id = demoA.id ∧
        t.status = TaskStatus.InProgress) ∧
    (∀ ts2, complete_task [setInProgress demoA] demoA.id = some ts2 →
      ts2 = complete_upd [setInProgress demoA] demoA.id ∧
      (∀ t ∈ [setInProgress demoA], t.id = demoA.id →
        t.status = TaskStatus.InProgress → setCompleted t ∈ ts2) ∧
      (∀ t ∈ [setInProgress demoA],
        ¬(t.id = demoA.id ∧ t.status = TaskStatus.InProgress) → t ∈ ts2)) ∧
    (complete_task [setInProgress demoA] demoA.id = none →
      complete_upd [setInProgress demoA] demoA.id = [setInProgress demoA]) :=
  complete_task_correct [setInProgress demoA] demoA.id

/-- C9: delete_task removes the row with the given id regardless of its
status, leaves every other row, cannot fail (deleting an absent id changes
nothing), and deleting the same id twice equals deleting it once. -/
theorem delete_task_correct (ts : List Task) (i : Nat) :
    (∀ t, t ∈ delete_task ts i ↔ t ∈ ts ∧ ¬ t.id = i) ∧
    delete_task (delete_task ts i) i = delete_task ts i ∧
    ((∀ t ∈ ts, ¬ t.id = i) → delete_task ts i = ts) := by
  refine ⟨?_, ?_, ?_⟩
  · intro t
    unfold delete_task
    rw [List.mem_filter]
    simp
  · unfold delete_task
    apply List.filter_eq_self.mpr
    intro t hmem
    exact (List.mem_filter.mp hmem).2
  · intro h
    unfold delete_task
    apply List.filter_eq_self.mpr
    intro t hmem
    simpa using h t hmem

theorem delete_task_correct_witness :
    (∀ t, t ∈ delete_task demoStore demoA.id ↔
      t ∈ demoStore ∧ ¬ t.id = demoA.id) ∧
    delete_task (delete_task demoStore demoA.id) demoA.id =
      delete_task demoStore demoA.id ∧
    ((∀ t ∈ demoStore, ¬ t.id = demoA.id) →
      delete_task demoStore demoA.id = demoStore) :=
  delete_task_correct demoStore demoA.id

/-- C8: get_tasks returns exactly the stored tasks (a permutation of the
table) sorted by process_at ascending, and get_filtered_tasks returns
exactly the tasks matching the status or kind filter, also sorted by
process_at ascending. -/
theorem list_tasks_correct (ts : List Task) (spec : Filter) :
    List.Sorted paLE (get_tasks ts) ∧
    List.Perm (get_tasks ts) ts ∧
    List.Sorted paLE (get_filtered_tasks spec ts) ∧
    List.Perm (get_filtered_tasks spec ts)
      (ts.filter fun t => decide (matchesFilter spec t)) ∧
    (∀ t, t ∈ get_filtered_tasks spec ts ↔ t ∈ ts ∧ matchesFilter spec t) := by
  refine ⟨List.sorted_insertionSort paLE ts, List.perm_insertionSort paLE ts,
    List.sorted_insertionSort paLE _, List.perm_insertionSort paLE _, ?_⟩
  intro t
  unfold get_filtered_tasks
  rw [List.mem_insertionSort, List.mem_filter]
  simp

theorem list_tasks_correct_witness :
    List.Sorted paLE (get_tasks demoStore) ∧
    List.Perm (get_tasks demoStore) demoStore ∧
    List.Sorted paLE (get_filtered_tasks (Filter.Kind TaskKind.Baz) demoStore) ∧
    List.Perm (get_filtered_tasks (Filter.Kind TaskKind.Baz) demoStore)
      (demoStore.filter fun t =>
        decide (matchesFilter (Filter.Kind TaskKind.Baz) t)) ∧
    (∀ t, t ∈ get_filtered_tasks (Filter.Kind TaskKind.Baz) demoStore ↔
      t ∈ demoStore ∧ matchesFilter (Filter.Kind TaskKind.Baz) t) :=
  list_tasks_correct demoStore (Filter.Kind TaskKind.Baz)

theorem applyOp_keeps_fields (ts : List Task) (op : StoreOp) (t2 : Task)
    (h : t2 ∈ applyOp ts op) :
    (∃ t1, t1 ∈ ts ∧ t1.id = t2.id ∧ t1.process_at = t2.process_at ∧
      t1.kind = t2.kind) ∨
    ∃ u, op = StoreOp.insert u ∧ t2 = u := by
  cases op with
  | insert t =>
    simp only [applyOp, add_task] at h
    by_cases hc : ∃ u ∈ ts, u.id = t.id
    · rw [if_pos hc] at h
      simp only [Option.getD_none] at h
      exact Or.inl ⟨t2, h, rfl, rfl, rfl⟩
    · rw [if_neg hc] at h
      simp only [Option.getD_some] at h
      rcases List.mem_append.mp h with hmem | hmem
      · exact Or.inl ⟨t2, hmem, rfl, rfl, rfl⟩
      · rcases List.mem_singleton.mp hmem with rfl
        exact Or.inr ⟨t2, rfl, rfl⟩
  | claim now =>
    simp only [applyOp, get_next_task_executable_at] at h
    split at h
    · exact Or.inl ⟨t2, h, rfl, rfl, rfl⟩
    · rename_i t heq
      simp only at h
      rcases List.mem_map.mp h with ⟨v, hv, rfl⟩
      refine Or.inl ⟨v, hv, ?_⟩
      by_cases hc : v.id = t.id
      · rw [if_pos hc]; exact ⟨rfl, rfl, rfl⟩
      · rw [if_neg hc]; exact ⟨rfl, rfl, rfl⟩
  | complete i =>
    simp only [applyOp, complete_task] at h
    by_cases hc : ∃ t ∈ ts, t.id = i ∧ t.status = TaskStatus.InProgress
    · rw [if_pos hc] at h
      simp only [Option.getD_some] at h
      unfold complete_upd at h
      rcases List.mem_map.mp h with ⟨v, hv, rfl⟩
      refine Or.inl ⟨v, hv, ?_⟩
      by_cases hg : v.id = i ∧ v.status = TaskStatus.InProgress
      · rw [if_pos hg]; exact ⟨rfl, rfl, rfl⟩
      · rw [if_neg hg]; exact ⟨rfl, rfl, rfl⟩
    · rw [if_neg hc] at h
      simp only [Option.getD_none] at h
      exact Or.inl ⟨t2, h, rfl, rfl, rfl⟩
  | delete i =>
    simp only [applyOp, delete_task] at h
    exact Or.inl ⟨t2, List.mem_of_mem_filter h, rfl, rfl, rfl⟩

/-- C6: a task created through Task::with_current_time has process_at
equal to the creation time plus the kind delay (3 seconds for Foo, 0 for
Bar and Baz) and status Pending; no store operation ever changes any
row's process_at (or kind or id); and a Foo task created at time t0 is
not returned by a claim at t0 but is returned by a claim at t0 + 3. -/
theorem task_creation_correct (k : TaskKind) (t0 : Int) (i : Nat) :
    (Task.with_current_time k t0 i).process_at = t0 + k.process_delay ∧
    (Task.with_current_time k t0 i).status = TaskStatus.Pending ∧
    TaskKind.process_delay TaskKind.Foo = 3 ∧
    TaskKind.process_delay TaskKind.Bar = 0 ∧
    TaskKind.process_delay TaskKind.Baz = 0 ∧
    (∀ ts op t2, t2 ∈ applyOp ts op →
      (∃ t1, t1 ∈ ts ∧ t1.id = t2.id ∧ t1.process_at = t2.process_at) ∨
      ∃ u, op = StoreOp.insert u ∧ t2 = u) ∧
    (get_next_task_executable_at
      [Task.with_current_time TaskKind.Foo t0 i] t0).1 = none ∧
    (get_next_task_executable_at
        [Task.with_current_time TaskKind.Foo t0 i] (t0 + 3)).1 =
      some (setInProgress (Task.with_current_time TaskKind.Foo t0 i)) := by
  have hne : eligibleB t0 (Task.with_current_time TaskKind.Foo t0 i) = false := by
    simp only [eligibleB, Task.with_current_time, TaskKind.process_delay,
      decide_eq_false_iff_not, not_and]
    intro _
    omega
  have hyes : eligibleB (t0 + 3) (Task.with_current_time TaskKind.Foo t0 i)
      = true := by
    simp [eligibleB, Task.with_current_time, TaskKind.process_delay]
  refine ⟨rfl, rfl, rfl, rfl, rfl, ?_, ?_, ?_⟩
  · intro ts op t2 h
    rcases applyOp_keeps_fields ts op t2 h with ⟨t1, h1, h2, h3, _⟩ | hr
    · exact Or.inl ⟨t1, h1, h2, h3⟩
    · exact Or.inr hr
  · unfold get_next_task_executable_at selectNext
    rw [hne]
    rfl
  · unfold get_next_task_executable_at selectNext
    rw [hyes]
    rfl

theorem task_creation_correct_witness :
    (Task.with_current_time TaskKind.Foo 100 7).process_at =
      100 + TaskKind.process_delay TaskKind.Foo ∧
    (Task.with_current_time TaskKind.Foo 100 7).status = TaskStatus.Pending ∧
    TaskKind.process_delay TaskKind.Foo = 3 ∧
    TaskKind.process_delay TaskKind.Bar = 0 ∧
    TaskKind.process_delay TaskKind.Baz = 0 ∧
    (∀ ts op t2, t2 ∈ applyOp ts op →
      (∃ t1, t1 ∈ ts ∧ t1.id = t2.id ∧ t1.process_at = t2.process_at) ∨
      ∃ u, op = StoreOp.insert u ∧ t2 = u) ∧
    (get_next_task_executable_at
      [Task.with_current_time TaskKind.Foo 100 7] 100).1 = none ∧
    (get_next_task_executable_at
        [Task.with_current_time TaskKind.Foo 100 7] (100 + 3)).1 =
      some (setInProgress (Task.with_current_time TaskKind.Foo 100 7)) :=
  task_creation_correct TaskKind.Foo 100 7

/-- C10: a task created through the HTTP path gets process_at equal to the
caller-supplied execute_at plus the kind delay — the server clock plays no
role — so a Foo task requested for time e is claimable only from e + 3,
while Bar and Baz tasks are claimable exactly at e. -/
theorem task_from_request_correct (r : TaskRequest) (i : Nat) :
    (taskFromRequest r i).process_at =
      r.execute_at + TaskKind.process_delay r.kind ∧
    (taskFromRequest r i).status = TaskStatus.Pending ∧
    (r.kind = TaskKind.Foo →
      (taskFromRequest r i).process_at = r.execute_at + 3) ∧
    (r.kind ≠ TaskKind.Foo →
      (taskFromRequest r i).process_at = r.execute_at) ∧
    (r.kind = TaskKind.Foo →
      (get_next_task_executable_at [taskFromRequest r i] r.execute_at).1
        = none) ∧
    (get_next_task_executable_at [taskFromRequest r i]
      (r.execute_at + TaskKind.process_delay r.kind)).1 =
      some (setInProgress (taskFromRequest r i)) := by
  have hpa : (taskFromRequest r i).process_at =
      r.execute_at + TaskKind.process_delay r.kind := rfl
  have hst : (taskFromRequest r i).status = TaskStatus.Pending := rfl
  have hyes : eligibleB (r.execute_at + TaskKind.process_delay r.kind)
      (taskFromRequest r i) = true := by
    rw [eligibleB_iff, hpa, hst]
    exact ⟨rfl, Int.le_refl _⟩
  refine ⟨hpa, hst, ?_, ?_, ?_, ?_⟩
  · intro hk
    rw [hpa, hk]
    rfl
  · intro hk
    rw [hpa]
    cases hr : r.kind with
    | Foo => exact absurd hr hk
    | Bar => simp [TaskKind.process_delay]
    | Baz => simp [TaskKind.process_delay]
  · intro hk
    have hne : eligibleB r.execute_at (taskFromRequest r i) = false := by
      simp only [eligibleB, decide_eq_false_iff_not, not_and]
      intro _
      rw [hpa, hk]
      simp only [TaskKind.process_delay]
      omega
    unfold get_next_task_executable_at selectNext
    rw [hne]
    rfl
  · unfold get_next_task_executable_at selectNext
    rw [hyes]
    rfl

theorem task_from_request_correct_witness :
    (taskFromRequest ⟨TaskKind.Foo, 50⟩ 3).process_at =
      (50 : Int) + TaskKind.process_delay TaskKind.Foo ∧
    (taskFromRequest ⟨TaskKind.Foo, 50⟩ 3).status = TaskStatus.Pending ∧
    (TaskKind.Foo = TaskKind.Foo →
      (taskFromRequest ⟨TaskKind.Foo, 50⟩ 3).process_at = (50 : Int) + 3) ∧
    (TaskKind.Foo ≠ TaskKind.Foo →
      (taskFromRequest ⟨TaskKind.Foo, 50⟩ 3).process_at = 50) ∧
    (TaskKind.Foo = TaskKind.Foo →
      (get_next_task_executable_at [taskFromRequest ⟨TaskKind.Foo, 50⟩ 3]
        50).1 = none) ∧
    (get_next_task_executable_at [taskFromRequest ⟨TaskKind.Foo, 50⟩ 3]
      ((50 : Int) + TaskKind.process_delay TaskKind.Foo)).1 =
      some (setInProgress (taskFromRequest ⟨TaskKind.Foo, 50⟩ 3)) :=
  task_from_request_correct ⟨TaskKind.Foo, 50⟩ 3

theorem getStatus_elim (ts : List Task) (i : Nat) (s : TaskStatus)
    (h : getStatus ts i = some s) :
    ∃ u, u ∈ ts ∧ u.id = i ∧ u.status = s ∧ get_task ts i = some u := by
  unfold getStatus at h
  rcases hg : get_task ts i with _ | u
  · rw [hg] at h
    cases h
  · rw [hg] at h
    obtain rfl : u.status = s := Option.some.inj h
    have hg2 : List.find? (fun t => decide (t.id = i)) ts = some u := hg
    have hp := List.find?_some hg2
    simp only [decide_eq_true_eq] at hp
    exact ⟨u, List.mem_of_find?_eq_some hg2, hp, rfl, by simp [hg]⟩

theorem get_next_snd_none (ts : List Task) (now : Int)
    (hs : selectNext now ts = none) :
    (get_next_task_executable_at ts now).2 = ts := by
  unfold get_next_task_executable_at
  rw [hs]

theorem get_next_snd_some (ts : List Task) (now : Int) (t : Task)
    (hs : selectNext now ts = some t) :
    (get_next_task_executable_at ts now).2 =
      ts.map fun u => if u.id = t.id then setInProgress u else u := by
  unfold get_next_task_executable_at
  rw [hs]

theorem get_task_map_id (ts : List Task) (i : Nat) (f : Task → Task)
    (hf : ∀ u, (f u).id = u.id) :
    get_task (ts.map f) i = (get_task ts i).map f := by
  induction ts with
  | nil => rfl
  | cons t ts ih =>
    unfold get_task at ih ⊢
    simp only [List.map_cons, List.find?_cons]
    have hdec : decide ((f t).id = i) = decide (t.id = i) := by rw [hf t]
    rw [hdec]
    cases hd : decide (t.id = i) with
    | true => rfl
    | false => simpa using ih

theorem complete_upd_ids (ts : List Task) (i : Nat) :
    (complete_upd ts i).map Task.id = ts.map Task.id := by
  unfold complete_upd
  rw [List.map_map]
  apply List.map_congr_left
  intro u _
  by_cases hc : u.id = i ∧ u.status = TaskStatus.InProgress
  · simp [hc, setCompleted]
  · simp [hc]

theorem applyOp_ids_nodup (ts : List Task) (op : StoreOp)
    (hids : (ts.map Task.id).Nodup) :
    ((applyOp ts op).map Task.id).Nodup := by
  cases op with
  | insert t =>
    simp only [applyOp, add_task]
    by_cases hc : ∃ u ∈ ts, u.id = t.id
    · rw [if_pos hc]
      exact hids
    · rw [if_neg hc]
      simp only [Option.getD_some, List.map_append, List.map_cons,
        List.map_nil]
      refine List.Nodup.append hids (List.nodup_singleton _) ?_
      intro x hx hx2
      rcases List.mem_singleton.mp hx2 with rfl
      rcases List.mem_map.mp hx with ⟨u, hu, hid⟩
      exact hc ⟨u, hu, hid⟩
  | claim now =>
    rw [show (applyOp ts (StoreOp.claim now)) =
      (get_next_task_executable_at ts now).2 from rfl, claim_ids_eq]
    exact hids
  | complete i =>
    simp only [applyOp, complete_task]
    by_cases hc : ∃ t ∈ ts, t.id = i ∧ t.status = TaskStatus.InProgress
    · rw [if_pos hc]
      simp only [Option.getD_some]
      rw [complete_upd_ids]
      exact hids
    · rw [if_neg hc]
      exact hids
  | delete i =>
    simp only [applyOp, delete_task]
    exact List.Nodup.sublist (List.Sublist.map Task.id (List.filter_sublist ts))
      hids

/-- C4: status monotonicity.  With the table's ids unique (the primary
key), any single store operation applied to any state either leaves a
row's observed status unchanged, moves it Pending to InProgress (and then
the operation is a claim), or moves it InProgress to Completed (and then
the operation is a complete of that id); and every operation preserves id
uniqueness, so this holds along every operation sequence.  No operation
moves a status backwards or away from Completed. -/
theorem status_monotone (ts : List Task) (op : StoreOp) (i : Nat)
    (s1 s2 : TaskStatus) (hids : (ts.map Task.id).Nodup)
    (h1 : getStatus ts i = some s1) (h2 : getStatus (applyOp ts op) i = some s2) :
    (s1 = s2 ∨
     (s1 = TaskStatus.Pending ∧ s2 = TaskStatus.InProgress ∧
       ∃ now, op = StoreOp.claim now) ∨
     (s1 = TaskStatus.InProgress ∧ s2 = TaskStatus.Completed ∧
       op = StoreOp.complete i)) ∧
    ((applyOp ts op).map Task.id).Nodup := by
  refine ⟨?_, applyOp_ids_nodup ts op hids⟩
  obtain ⟨u, humem, huid, hustat, hufind⟩ := getStatus_elim ts i s1 h1
  cases op with
  | insert t =>
    simp only [applyOp, add_task] at h2
    by_cases hc : ∃ v ∈ ts, v.id = t.id
    · rw [if_pos hc] at h2
      simp only [Option.getD_none] at h2
      rw [h1] at h2
      exact Or.inl (Option.some.inj h2)
    · rw [if_neg hc] at h2
      simp only [Option.getD_some] at h2
      unfold getStatus get_task at h2
      rw [List.find?_append] at h2
      unfold get_task at hufind
      rw [hufind] at h2
      simp only [Option.or_some, Option.map_some'] at h2
      exact Or.inl (hustat.symm.trans (Option.some.inj h2))
  | claim now =>
    simp only [applyOp] at h2
    rcases hs : selectNext now ts with _ | t
    · rw [get_next_snd_none ts now hs] at h2
      rw [h1] at h2
      exact Or.inl (Option.some.inj h2)
    · rw [get_next_snd_some ts now t hs] at h2
      unfold getStatus at h2
      rw [get_task_map_id ts i _ (fun v => by
        by_cases hv : v.id = t.id
        · simp [hv, setInProgress]
        · simp [hv])] at h2
      unfold get_task at hufind h2
      rw [hufind] at h2
      simp only [Option.map_some'] at h2
      by_cases hut : u.id = t.id
      · rw [if_pos hut] at h2
        have ht : t ∈ ts := selectNext_mem now ts t hs
        have := List.inj_on_of_nodup_map hids humem ht hut
        subst this
        have hpend := ((eligibleB_iff now u).mp
          (selectNext_eligible now ts u hs)).1
        refine Or.inr (Or.inl ⟨hustat ▸ hpend, ?_, now, rfl⟩)
        have : (setInProgress u).status = s2 := Option.some.inj h2
        exact this.symm.trans rfl
      · rw [if_neg hut] at h2
        exact Or.inl (hustat.symm.trans (Option.some.inj h2))
  | complete j =>
    simp only [applyOp, complete_task] at h2
    by_cases hc : ∃ v ∈ ts, v.id = j ∧ v.status = TaskStatus.InProgress
    · rw [if_pos hc] at h2
      simp only [Option.getD_some] at h2
      unfold getStatus complete_upd at h2
      rw [get_task_map_id ts i _ (fun v => by
        by_cases hv : v.id = j ∧ v.status = TaskStatus.InProgress
        · simp [hv, setCompleted]
        · simp [hv])] at h2
      unfold get_task at hufind h2
      rw [hufind] at h2
      simp only [Option.map_some'] at h2
      by_cases hg : u.id = j ∧ u.status = TaskStatus.InProgress
      · rw [if_pos hg] at h2
        have hji : j = i := hg.1 ▸ huid
        refine Or.inr (Or.inr ⟨hustat ▸ hg.2, ?_, by rw [hji]⟩)
        have : (setCompleted u).status = s2 := Option.some.inj h2
        exact this.symm.trans rfl
      · rw [if_neg hg] at h2
        exact Or.inl (hustat.symm.trans (Option.some.inj h2))
    · rw [if_neg hc] at h2
      simp only [Option.getD_none] at h2
      rw [h1] at h2
      exact Or.inl (Option.some.inj h2)
  | delete j =>
    simp only [applyOp, delete_task] at h2
    obtain ⟨v, hvmem, hvid, hvstat, _⟩ := getStatus_elim _ i s2 h2
    have hvts : v ∈ ts := List.mem_of_mem_filter hvmem
    have := List.inj_on_of_nodup_map hids humem hvts (huid.trans hvid.symm)
    subst this
    exact Or.inl (hustat.symm.trans hvstat)

theorem status_monotone_witness :
    ((TaskStatus.Pending = TaskStatus.InProgress ∨
      (TaskStatus.Pending = TaskStatus.Pending ∧
        TaskStatus.InProgress = TaskStatus.InProgress ∧
        ∃ now, StoreOp.claim (5 : Int) = StoreOp.claim now) ∨
      (TaskStatus.Pending = TaskStatus.InProgress ∧
        TaskStatus.InProgress = TaskStatus.Completed ∧
        StoreOp.claim (5 : Int) = StoreOp.complete demoA.id)) ∧
     ((applyOp demoStore (StoreOp.claim 5)).map Task.id).Nodup) :=
  status_monotone demoStore (StoreOp.claim 5) demoA.id
    TaskStatus.Pending TaskStatus.InProgress
    (by decide) (by decide) (by decide)

/-! ### Worker-loop theorems -/

/-- C5 counterexample: the worker loop claims before it acquires a permit,
so capacity is not enforced at poll time.  From eleven eligible tasks the
loop reaches a state with all ten permits held (ten tasks dispatched, none
completed) and the loop back at its poll point, and from that saturated
state it still performs a claimNext step — transitioning an eleventh task
to InProgress — before any permit is released. -/
theorem worker_claims_while_saturated :
    WReach (initWorker demoTasks) cexSat ∧
    cexSat.executing.length = MAX_CONCURRENT_TASKS ∧
    WStep cexSat (Label.pollSome 0) cexSatNext :=
  ⟨runLabels_sound satLabels (initWorker demoTasks) cexSat (by decide),
   by decide,
   stepRun_sound cexSat (Label.pollSome 0) cexSatNext (by decide)⟩

/-- C5 amended: capacity is enforced at dispatch time, not at poll time.
In every reachable worker state at most MAX_CONCURRENT_TASKS tasks are
dispatched and uncompleted, and a dispatch step is enabled only while the
dispatched count is strictly below the cap; when saturated the loop cannot
dispatch until a permit is released, though it may claim (and then hold)
one further task, as the counterexample shows. -/
theorem worker_capacity (ts : List Task) (s : WState)
    (h : WReach (initWorker ts) s) :
    s.executing.length ≤ MAX_CONCURRENT_TASKS ∧
    ∀ s2, WStep s Label.dispatched s2 →
      s.executing.length < MAX_CONCURRENT_TASKS := by
  constructor
  · induction h with
    | refl => simp [initWorker]
    | tail hreach hstep ih =>
      rcases hstep with ⟨l, hstep⟩
      cases hstep with
      | pollNone store ex now ts2 hq => exact ih
      | pollSome store ex now t ts2 hq => exact ih
      | dispatched store ex t hlt =>
        simpa using hlt
      | finished store ex pc i hmem =>
        have hsub : (ex.erase i).Sublist ex := List.erase_sublist i ex
        exact Nat.le_trans (List.Sublist.length_le hsub) ih
  · intro s2 hstep
    cases hstep with
    | dispatched store ex t hlt => exact hlt

theorem worker_capacity_witness :
    (initWorker demoTasks).executing.length ≤ MAX_CONCURRENT_TASKS ∧
    ∀ s2, WStep (initWorker demoTasks) Label.dispatched s2 →
      (initWorker demoTasks).executing.length < MAX_CONCURRENT_TASKS :=
  worker_capacity demoTasks (initWorker demoTasks) Relation.ReflTransGen.refl

/-- C7: once a dispatched task's execution returns, the finish step is
unconditionally enabled: it invokes complete_task on the store and
releases the permit (the dispatched count drops by one), whatever the
outcome; if complete_task itself fails the store is simply left unchanged
(the failure is only logged), and the polling loop is unaffected — from
its poll point it can always take the next poll step. -/
theorem run_task_correct (s : WState) (i : Nat) (h : i ∈ s.executing) :
    WStep s (Label.finished i)
      ⟨completeEffect s.store i, s.executing.erase i, s.pc⟩ ∧
    (complete_task s.store i = none → completeEffect s.store i = s.store) ∧
    (s.executing.erase i).length + 1 = s.executing.length ∧
    (∀ now, s.pc = PC.poll → ∃ l s3,
      WStep ⟨completeEffect s.store i, s.executing.erase i, s.pc⟩ l s3 ∧
      (l = Label.pollNone now ∨ l = Label.pollSome now)) := by
  refine ⟨WStep.finished s.store s.executing s.pc i h, ?_, ?_, ?_⟩
  · intro hnone
    unfold completeEffect
    rw [hnone]
    rfl
  · rw [List.length_erase_of_mem h]
    have hpos : 0 < s.executing.length :=
      List.length_pos.mpr (List.ne_nil_of_mem h)
    omega
  · intro now hpc
    rw [hpc]
    rcases hq : get_next_task_executable_at (completeEffect s.store i) now
      with ⟨r, ts2⟩
    cases r with
    | none =>
      exact ⟨Label.pollNone now, ⟨ts2, s.executing.erase i, PC.poll⟩,
        WStep.pollNone _ _ now ts2 hq, Or.inl rfl⟩
    | some t =>
      exact ⟨Label.pollSome now, ⟨ts2, s.executing.erase i, PC.acquire t⟩,
        WStep.pollSome _ _ now t ts2 hq, Or.inr rfl⟩

theorem run_task_correct_witness :
    WStep demoWState (Label.finished 5)
      ⟨completeEffect demoWState.store 5, demoWState.executing.erase 5,
        demoWState.pc⟩ ∧
    (complete_task demoWState.store 5 = none →
      completeEffect demoWState.store 5 = demoWState.store) ∧
    (demoWState.executing.erase 5).length + 1 =
      demoWState.executing.length ∧
    (∀ now, demoWState.pc = PC.poll → ∃ l s3,
      WStep ⟨completeEffect demoWState.store 5,
        demoWState.executing.erase 5, demoWState.pc⟩ l s3 ∧
      (l = Label.pollNone now ∨ l = Label.pollSome now)) :=
  run_task_correct demoWState 5 (by decide)

end TaskScheduler
